import Mathlib

/-!
Verification of the BrontoBox core: a shallow embedding of the crypto manager,
file chunker, vault core and storage manager, with theorems checking the
natural-language specification against the code.

Byte strings are modelled as `List Nat`.  External cryptographic primitives
(SHA-256, PBKDF2, AES-256-GCM) are not part of the repository; they are
modelled ideally (collision-free hash, perfectly authenticating AEAD), and
each such model is marked in its doc comment.  Randomness (salts, nonces,
chunk ids, tokens) is supplied as explicit parameters.  Base64 transport
encoding is a bijection and is modelled as the identity.
-/

abbrev Bytes := List Nat

/-- Ideal model of SHA-256 (`hashlib.sha256(...).hexdigest()` in
`crypto_manager.py`): an injective function of the input bytes, standing in
for a collision-free hash.  The digest is represented as a byte list. -/
def sha256 (data : Bytes) : Bytes := data.length :: data

/-- Model of `hashlib.sha256(key).hexdigest()[:16]` used as the `key_id`
field of encrypted blobs (`crypto_manager.py` lines 78 and 86): the digest
truncated to 16 symbols.  The truncation of the source is kept. -/
def keyFingerprint (key : Bytes) : Bytes := (sha256 key).take 16

/-- Ideal model of PBKDF2-HMAC-SHA256 with 100000 iterations producing
128 bytes of key material (`CryptoManager.derive_master_keys`): an arbitrary
deterministic function of password and salt, which is the only property the
verified claims use. -/
def pbkdf2HmacSha256 (password salt : Bytes) : Bytes :=
  (List.range 128).map fun i => (password.sum + salt.sum + i) % 256

/-- The four purpose-specific keys derived from the master password
(`CryptoManager.derive_master_keys`). -/
structure MasterKeys where
  file_encryption : Bytes
  metadata_encryption : Bytes
  vault_unlock : Bytes
  token_encryption : Bytes
deriving DecidableEq, Repr

/-- `CryptoManager.derive_master_keys`: stretch the password into 128 bytes
of key material and split it at fixed offsets `[0:32]`, `[32:64]`, `[64:96]`,
`[96:128]`. -/
def derive_master_keys (password salt : Bytes) : MasterKeys :=
  let m := pbkdf2HmacSha256 password salt
  { file_encryption := m.take 32
    metadata_encryption := (m.drop 32).take 32
    vault_unlock := (m.drop 64).take 32
    token_encryption := (m.drop 96).take 32 }

/-- The constant `'AES-256-GCM'` algorithm tag, as ASCII bytes. -/
def algAesGcm : Bytes := [65, 69, 83, 45, 50, 53, 54, 45, 71, 67, 77]

/-- The dictionary returned by `CryptoManager.encrypt_data`: base64 transport
encoding of ciphertext and nonce is modelled as the identity. -/
structure EncryptedBlob where
  ciphertext : Bytes
  nonce : Bytes
  algorithm : Bytes
  key_id : Bytes
deriving DecidableEq, Repr

/-- Ideal model of `AESGCM(key).encrypt(nonce, data, None)`: the ciphertext
carries the payload together with a perfectly binding authentication tag over
(key, nonce, payload); the tag is modelled as the triple itself, so the
ciphertext is `data ++ key ++ nonce ++ data`.  This idealizes AES-GCM's
authenticity guarantee (a forgery would need to alter at least two symbols
consistently, so no single-symbol alteration can ever verify). -/
def aesgcmEncrypt (key nonce data : Bytes) : Bytes :=
  data ++ key ++ nonce ++ data

/-- Ideal model of `AESGCM(key).decrypt(nonce, ciphertext, None)`: recover
the payload and recheck the authentication tag; `none` models the
`InvalidTag` exception. -/
def aesgcmDecrypt (key nonce ct : Bytes) : Option Bytes :=
  let d := (ct.length - (key.length + nonce.length)) / 2
  let body := ct.take d
  if ct = body ++ key ++ nonce ++ body then some body else none

/-- `CryptoManager.encrypt_data`: AES-256-GCM with a fresh random nonce
(passed as a parameter here) and a `key_id` fingerprint of the key. -/
def encrypt_data (data key nonce : Bytes) : EncryptedBlob :=
  { ciphertext := aesgcmEncrypt key nonce data
    nonce := nonce
    algorithm := algAesGcm
    key_id := keyFingerprint key }

/-- `CryptoManager.decrypt_data`: first compare the blob's `key_id` against
the fingerprint of the supplied key (raising `ValueError` on mismatch,
modelled as `none`), then AES-GCM decrypt. -/
def decrypt_data (blob : EncryptedBlob) (key : Bytes) : Option Bytes :=
  if blob.key_id = keyFingerprint key then
    aesgcmDecrypt key blob.nonce blob.ciphertext
  else none

/-- `CryptoManager.create_secure_hash`. -/
def create_secure_hash (data : Bytes) : Bytes := sha256 data

/-- The `FileChunk` dataclass of `file_chunker.py`. -/
structure FileChunk where
  chunk_id : Bytes
  chunk_index : Nat
  chunk_size : Nat
  chunk_hash : Bytes
  encrypted_data : EncryptedBlob
deriving DecidableEq, Repr

/-- The manifest dictionary built by `FileChunker.chunk_file`. -/
structure FileManifest where
  file_name : Bytes
  file_size : Nat
  file_hash : Bytes
  num_chunks : Nat
  chunk_size : Nat
  chunks : List FileChunk
  created_at : Bytes
  modified_at : Bytes
deriving DecidableEq, Repr

/-- `FileChunker.calculate_chunks_needed`: `math.ceil(file_size / M)`,
written as exact natural-number ceiling division. -/
def calculate_chunks_needed (M fileSize : Nat) : Nat :=
  (fileSize + M - 1) / M

/-- The loop body of `FileChunker.chunk_file`: read up to `M` bytes, stop
when the read is empty, hash and encrypt each window, and accumulate the
running whole-file hash input.  `chunkIds` and `nonces` supply the per-index
randomness (`secrets.token_hex(16)` and the AES-GCM nonce).  Returns the
chunk list together with the bytes fed to the running file hash. -/
def chunkFileLoop (key : Bytes) (chunkIds nonces : Nat → Bytes) (M : Nat) :
    Nat → Bytes → Nat → List FileChunk × Bytes
  | 0, _, _ => ([], [])
  | n + 1, rest, idx =>
    let data := rest.take M
    if data.isEmpty then ([], [])
    else
      let r := chunkFileLoop key chunkIds nonces M n (rest.drop M) (idx + 1)
      ({ chunk_id := chunkIds idx
         chunk_index := idx
         chunk_size := data.length
         chunk_hash := create_secure_hash data
         encrypted_data := encrypt_data data key (nonces idx) } :: r.1,
       data ++ r.2)

/-- `FileChunker.chunk_file`: split `content` into encrypted chunks and build
the manifest.  The file is given by its byte `content`; name and timestamps
are parameters standing for `os.path` results. -/
def chunk_file (key : Bytes) (chunkIds nonces : Nat → Bytes) (M : Nat)
    (fileName content ctime mtime : Bytes) : FileManifest :=
  let n := calculate_chunks_needed M content.length
  let r := chunkFileLoop key chunkIds nonces M n content 0
  { file_name := fileName
    file_size := content.length
    file_hash := sha256 r.2
    num_chunks := r.1.length
    chunk_size := M
    chunks := r.1
    created_at := ctime
    modified_at := mtime }

/-- The decrypt-and-verify loop of `FileChunker.reconstruct_file`: decrypt
each chunk and check its `chunk_hash`; any failure aborts (the exception is
caught and the function returns `False`, modelled as `none`). -/
def decryptChunks (key : Bytes) : List FileChunk → Option (List Bytes)
  | [] => some []
  | c :: cs =>
    match decrypt_data c.encrypted_data key with
    | none => none
    | some pt =>
      if create_secure_hash pt = c.chunk_hash then
        (decryptChunks key cs).map (pt :: ·)
      else none

/-- `FileChunker.reconstruct_file`: sort the manifest's chunks by
`chunk_index`, decrypt and verify each, concatenate, and verify the whole
file hash; `some bytes` models a `True` return with `bytes` written to the
output path, `none` models a `False` return with no surviving output file. -/
def reconstruct_file (manifest : FileManifest) (key : Bytes) : Option Bytes :=
  let sorted := manifest.chunks.mergeSort fun a b => decide (a.chunk_index ≤ b.chunk_index)
  match decryptChunks key sorted with
  | none => none
  | some parts =>
    let out := parts.flatten
    if sha256 out = manifest.file_hash then some out else none

/-! ### Lemmas about the AEAD model -/

theorem aesgcmEncrypt_assoc (key nonce data : Bytes) :
    aesgcmEncrypt key nonce data = data ++ (key ++ nonce ++ data) := by
  simp [aesgcmEncrypt]

theorem aesgcmEncrypt_take (key nonce data : Bytes) :
    (aesgcmEncrypt key nonce data).take data.length = data := by
  rw [aesgcmEncrypt_assoc]
  exact List.take_left' rfl

theorem aesgcmEncrypt_drop (key nonce data : Bytes) :
    (aesgcmEncrypt key nonce data).drop data.length = key ++ nonce ++ data := by
  rw [aesgcmEncrypt_assoc]
  exact List.drop_left' rfl

theorem aesgcmEncrypt_length (key nonce data : Bytes) :
    (aesgcmEncrypt key nonce data).length
      = 2 * data.length + (key.length + nonce.length) := by
  simp [aesgcmEncrypt]
  omega

theorem aesgcm_roundtrip (key nonce data : Bytes) :
    aesgcmDecrypt key nonce (aesgcmEncrypt key nonce data) = some data := by
  have hd : ((aesgcmEncrypt key nonce data).length
      - (key.length + nonce.length)) / 2 = data.length := by
    rw [aesgcmEncrypt_length]
    omega
  simp only [aesgcmDecrypt, hd, aesgcmEncrypt_take]
  rw [if_pos]
  simp [aesgcmEncrypt]

/-- `decrypt_data` inverts `encrypt_data` under the same key. -/
theorem decrypt_encrypt (data key nonce : Bytes) :
    decrypt_data (encrypt_data data key nonce) key = some data := by
  simp [decrypt_data, encrypt_data, aesgcm_roundtrip]

theorem aesgcm_tamper_ciphertext (key nonce data : Bytes) (i v : Nat)
    (hi : i < (aesgcmEncrypt key nonce data).length)
    (hv : v ≠ (aesgcmEncrypt key nonce data)[i]) :
    aesgcmDecrypt key nonce ((aesgcmEncrypt key nonce data).set i v) = none := by
  set ct := aesgcmEncrypt key nonce data with hct
  have hlen : ct.length = 2 * data.length + (key.length + nonce.length) :=
    aesgcmEncrypt_length key nonce data
  have hlen' : (ct.set i v).length = ct.length := by simp
  have hd : ((ct.set i v).length - (key.length + nonce.length)) / 2
      = data.length := by
    rw [hlen', hlen]
    omega
  have hne : ct.set i v ≠ ct := by
    intro he
    apply hv
    have h1 : (ct.set i v)[i]? = some v := List.getElem?_set_self hi
    rw [he, List.getElem?_eq_getElem hi] at h1
    exact (Option.some.injEq _ _ ▸ h1).symm
  simp only [aesgcmDecrypt, hd]
  rw [if_neg]
  intro h
  rcases Nat.lt_or_ge i data.length with hilt | hige
  · have hdrop : (ct.set i v).drop data.length = ct.drop data.length := by
      rw [List.drop_set, if_pos hilt]
    have hbodylen : ((ct.set i v).take data.length).length = data.length := by
      simp [hlen', hlen]
      omega
    have h2 : (ct.set i v).drop data.length
        = key ++ nonce ++ (ct.set i v).take data.length := by
      conv_lhs => rw [h]
      rw [show (ct.set i v).take data.length ++ key ++ nonce
            ++ (ct.set i v).take data.length
          = (ct.set i v).take data.length
            ++ (key ++ nonce ++ (ct.set i v).take data.length) by
        simp [List.append_assoc]]
      exact List.drop_left' hbodylen
    have hctdrop : ct.drop data.length = key ++ nonce ++ data := by
      rw [hct]
      exact aesgcmEncrypt_drop key nonce data
    rw [hdrop, hctdrop] at h2
    have h3 : data = (ct.set i v).take data.length := by
      have h4 : (key ++ nonce) ++ data
          = (key ++ nonce) ++ (ct.set i v).take data.length := by
        simpa [List.append_assoc] using h2
      exact List.append_cancel_left h4
    apply hne
    rw [h, ← h3, hct]
    rfl
  · have htake' : (ct.set i v).take data.length = ct.take data.length := by
      rw [List.set_take]
      apply List.set_eq_of_length_le
      simp only [List.length_take]
      omega
    rw [htake', aesgcmEncrypt_take] at h
    apply hne
    rw [h, hct]
    rfl

theorem aesgcm_tamper_nonce (key nonce data n2 : Bytes) (hn : n2 ≠ nonce)
    (hlen : n2.length = nonce.length) :
    aesgcmDecrypt key n2 (aesgcmEncrypt key nonce data) = none := by
  have hd : ((aesgcmEncrypt key nonce data).length
      - (key.length + n2.length)) / 2 = data.length := by
    rw [aesgcmEncrypt_length, hlen]
    omega
  simp only [aesgcmDecrypt, hd, aesgcmEncrypt_take]
  rw [if_neg]
  intro h
  apply hn
  rw [aesgcmEncrypt] at h
  have h1 : (data ++ key) ++ nonce = (data ++ key) ++ n2 :=
    List.append_cancel_right h
  exact (List.append_cancel_left h1).symm

/-- Whenever `decrypt_data` succeeds, the returned plaintext is exactly the
payload whose encryption under the supplied key and the blob's nonce is the
blob's ciphertext: no incorrect plaintext is ever returned. -/
theorem decrypt_data_sound (blob : EncryptedBlob) (key pt : Bytes)
    (h : decrypt_data blob key = some pt) :
    blob.ciphertext = aesgcmEncrypt key blob.nonce pt := by
  simp only [decrypt_data, aesgcmDecrypt] at h
  split at h
  · split at h
    · rename_i hcond
      have hpt := Option.some.inj h
      rw [aesgcmEncrypt, ← hpt]
      exact hcond
    · simp at h
  · simp at h

/-! ### Lemmas about the chunking loop -/

theorem calculate_chunks_needed_zero (M : Nat) (hM : 0 < M) :
    calculate_chunks_needed M 0 = 0 := by
  unfold calculate_chunks_needed
  exact Nat.div_eq_of_lt (by omega)

theorem calculate_chunks_needed_succ (M len : Nat) (hM : 0 < M)
    (hlen : 0 < len) :
    calculate_chunks_needed M len = calculate_chunks_needed M (len - M) + 1 := by
  unfold calculate_chunks_needed
  rcases le_or_lt len M with hle | hlt
  · have h1 : len - M = 0 := by omega
    rw [h1]
    have h2 : (len + M - 1) / M = 1 := by
      apply Nat.div_eq_of_lt_le <;> omega
    have h3 : (0 + M - 1) / M = 0 := Nat.div_eq_of_lt (by omega)
    omega
  · have h1 : len + M - 1 = (len - M + M - 1) + M := by omega
    rw [h1, Nat.add_div_right _ hM]

theorem calculate_chunks_needed_le (M len : Nat) (hM : 0 < M) :
    len ≤ calculate_chunks_needed M len * M := by
  unfold calculate_chunks_needed
  have h1 : M * ((len + M - 1) / M) + (len + M - 1) % M = len + M - 1 :=
    Nat.div_add_mod _ M
  have h2 : (len + M - 1) % M < M := Nat.mod_lt _ hM
  rw [Nat.mul_comm]
  omega

theorem chunkFileLoop_hash (key : Bytes) (cid non : Nat → Bytes) (M : Nat)
    (hM : 0 < M) :
    ∀ (n : Nat) (rest : Bytes) (idx : Nat), rest.length ≤ n * M →
      (chunkFileLoop key cid non M n rest idx).2 = rest := by
  intro n
  induction n with
  | zero =>
    intro rest idx hle
    have hr : rest = [] := List.eq_nil_of_length_eq_zero (by omega)
    subst hr
    rfl
  | succ n ih =>
    intro rest idx hle
    by_cases hr : rest = []
    · subst hr
      simp [chunkFileLoop]
    · have hc : ¬((rest.take M).isEmpty = true) := by
        simp only [List.isEmpty_iff, List.take_eq_nil_iff]
        push_neg
        exact ⟨by omega, hr⟩
      simp only [chunkFileLoop]
      rw [if_neg hc]
      have hmul : (n + 1) * M = n * M + M := by ring
      have hdrop : (rest.drop M).length ≤ n * M := by
        simp only [List.length_drop]
        omega
      rw [ih (rest.drop M) (idx + 1) hdrop]
      exact List.take_append_drop M rest

theorem chunkFileLoop_reconstruct (key : Bytes) (cid non : Nat → Bytes)
    (M : Nat) (hM : 0 < M) :
    ∀ (n : Nat) (rest : Bytes) (idx : Nat), rest.length ≤ n * M →
      ∃ parts,
        decryptChunks key (chunkFileLoop key cid non M n rest idx).1
            = some parts
          ∧ parts.flatten = rest := by
  intro n
  induction n with
  | zero =>
    intro rest idx hle
    have hr : rest = [] := List.eq_nil_of_length_eq_zero (by omega)
    subst hr
    exact ⟨[], rfl, rfl⟩
  | succ n ih =>
    intro rest idx hle
    by_cases hr : rest = []
    · subst hr
      exact ⟨[], by simp [chunkFileLoop, decryptChunks], rfl⟩
    · have hc : ¬((rest.take M).isEmpty = true) := by
        simp only [List.isEmpty_iff, List.take_eq_nil_iff]
        push_neg
        exact ⟨by omega, hr⟩
      have hmul : (n + 1) * M = n * M + M := by ring
      have hdrop : (rest.drop M).length ≤ n * M := by
        simp only [List.length_drop]
        omega
      obtain ⟨parts, hp, hf⟩ := ih (rest.drop M) (idx + 1) hdrop
      refine ⟨rest.take M :: parts, ?_, ?_⟩
      · simp only [chunkFileLoop]
        rw [if_neg hc]
        simp only [decryptChunks, decrypt_encrypt]
        simp [hp]
      · simp only [List.flatten_cons, hf]
        exact List.take_append_drop M rest

theorem chunkFileLoop_length (key : Bytes) (cid non : Nat → Bytes) (M : Nat)
    (hM : 0 < M) :
    ∀ (n : Nat) (rest : Bytes) (idx : Nat),
      n = calculate_chunks_needed M rest.length →
      (chunkFileLoop key cid non M n rest idx).1.length = n := by
  intro n
  induction n with
  | zero => intro rest idx _; rfl
  | succ n ih =>
    intro rest idx hn
    by_cases hr : rest = []
    · exfalso
      subst hr
      rw [show ([] : Bytes).length = 0 from rfl,
        calculate_chunks_needed_zero M hM] at hn
      omega
    · have hc : ¬((rest.take M).isEmpty = true) := by
        simp only [List.isEmpty_iff, List.take_eq_nil_iff]
        push_neg
        exact ⟨by omega, hr⟩
      have hlen : 0 < rest.length := List.length_pos.mpr hr
      have hsucc := calculate_chunks_needed_succ M rest.length hM hlen
      have hn' : n = calculate_chunks_needed M (rest.drop M).length := by
        simp only [List.length_drop]
        omega
      simp only [chunkFileLoop]
      rw [if_neg hc]
      simp only [List.length_cons]
      rw [ih (rest.drop M) (idx + 1) hn']

theorem chunkFileLoop_indices (key : Bytes) (cid non : Nat → Bytes) (M : Nat) :
    ∀ (n : Nat) (rest : Bytes) (idx : Nat),
      (chunkFileLoop key cid non M n rest idx).1.map FileChunk.chunk_index
        = List.range' idx (chunkFileLoop key cid non M n rest idx).1.length := by
  intro n
  induction n with
  | zero => intro rest idx; rfl
  | succ n ih =>
    intro rest idx
    by_cases hc : (rest.take M).isEmpty = true
    · simp [chunkFileLoop, hc]
    · simp only [chunkFileLoop]
      rw [if_neg hc]
      simp only [List.map_cons, List.length_cons, List.range'_succ]
      rw [ih (rest.drop M) (idx + 1)]

theorem chunkFileLoop_index_lb (key : Bytes) (cid non : Nat → Bytes)
    (M : Nat) :
    ∀ (n : Nat) (rest : Bytes) (idx : Nat) (c : FileChunk),
      c ∈ (chunkFileLoop key cid non M n rest idx).1 → idx ≤ c.chunk_index := by
  intro n
  induction n with
  | zero =>
    intro rest idx c hmem
    simp [chunkFileLoop] at hmem
  | succ n ih =>
    intro rest idx c hmem
    by_cases hc : (rest.take M).isEmpty = true
    · simp [chunkFileLoop, hc] at hmem
    · simp only [chunkFileLoop] at hmem
      rw [if_neg hc] at hmem
      rcases List.mem_cons.mp hmem with hhd | htl
      · subst hhd; exact Nat.le_refl idx
      · exact Nat.le_of_succ_le (ih (rest.drop M) (idx + 1) c htl)

theorem chunkFileLoop_pairwise (key : Bytes) (cid non : Nat → Bytes)
    (M : Nat) :
    ∀ (n : Nat) (rest : Bytes) (idx : Nat),
      (chunkFileLoop key cid non M n rest idx).1.Pairwise
        (fun a b => a.chunk_index ≤ b.chunk_index) := by
  intro n
  induction n with
  | zero => intro rest idx; exact List.Pairwise.nil
  | succ n ih =>
    intro rest idx
    by_cases hc : (rest.take M).isEmpty = true
    · simp [chunkFileLoop, hc]
    · simp only [chunkFileLoop]
      rw [if_neg hc]
      refine List.Pairwise.cons ?_ (ih (rest.drop M) (idx + 1))
      intro b hb
      exact Nat.le_of_succ_le (chunkFileLoop_index_lb key cid non M n
        (rest.drop M) (idx + 1) b hb)

/-- Round-trip of the chunker for an arbitrary 32-byte (or any) key:
`reconstruct_file` of `chunk_file` output returns the original content. -/
theorem reconstruct_chunk_file (key : Bytes) (cid non : Nat → Bytes)
    (M : Nat) (hM : 0 < M) (fileName content ctime mtime : Bytes) :
    reconstruct_file (chunk_file key cid non M fileName content ctime mtime)
      key = some content := by
  have hle : content.length ≤ calculate_chunks_needed M content.length * M :=
    calculate_chunks_needed_le M content.length hM
  obtain ⟨parts, hp, hf⟩ := chunkFileLoop_reconstruct key cid non M hM
    (calculate_chunks_needed M content.length) content 0 hle
  have hhash := chunkFileLoop_hash key cid non M hM
    (calculate_chunks_needed M content.length) content 0 hle
  have hpair := chunkFileLoop_pairwise key cid non M
    (calculate_chunks_needed M content.length) content 0
  simp only [reconstruct_file, chunk_file]
  rw [List.mergeSort_of_sorted (hpair.imp fun h => decide_eq_true h)]
  rw [hp]
  simp [hf, hhash]

/-- C1: Round-trip — for every byte string and every key derived from a
password and salt, reconstructing a file from the manifest produced by
chunking it under that key succeeds and yields exactly the original bytes. -/
theorem chunk_file_round_trip
    (password salt fileName content ctime mtime : Bytes)
    (cid non : Nat → Bytes) (M : Nat) (hM : 0 < M) :
    reconstruct_file
      (chunk_file (derive_master_keys password salt).file_encryption
        cid non M fileName content ctime mtime)
      (derive_master_keys password salt).file_encryption = some content :=
  reconstruct_chunk_file _ cid non M hM fileName content ctime mtime

/-- Witness for C1 at a concrete input: a 3-byte file, 2-byte chunks. -/
theorem chunk_file_round_trip_witness :
    reconstruct_file
      (chunk_file (derive_master_keys [1] [2]).file_encryption
        (fun _ => [3]) (fun _ => [4]) 2 [9] [5, 6, 7] [] [])
      (derive_master_keys [1] [2]).file_encryption = some [5, 6, 7] :=
  chunk_file_round_trip [1] [2] [9] [5, 6, 7] [] []
    (fun _ => [3]) (fun _ => [4]) 2 (by decide)

/-- C7 (amended): chunking a file of size `S` with chunk limit `M` produces
exactly `ceil(S / M)` chunks — which is `0`, not `1`, for an empty file —
and the chunks are indexed contiguously from 0. -/
theorem chunk_file_count (key : Bytes) (cid non : Nat → Bytes) (M : Nat)
    (hM : 0 < M) (fileName content ctime mtime : Bytes) :
    (chunk_file key cid non M fileName content ctime mtime).chunks.length
        = calculate_chunks_needed M content.length
      ∧ (chunk_file key cid non M fileName content ctime
          mtime).chunks.map FileChunk.chunk_index
        = List.range ((chunk_file key cid non M fileName content ctime
            mtime).chunks.length) := by
  have hlen := chunkFileLoop_length key cid non M hM
    (calculate_chunks_needed M content.length) content 0 rfl
  have hidx := chunkFileLoop_indices key cid non M
    (calculate_chunks_needed M content.length) content 0
  constructor
  · simpa [chunk_file] using hlen
  · simp only [chunk_file]
    rw [List.range_eq_range']
    exact hidx

/-- Witness for C7 (amended) at a concrete input: 3 bytes, chunk limit 2. -/
theorem chunk_file_count_witness :
    (chunk_file [0] (fun _ => [1]) (fun _ => [2]) 2
        [7] [5, 6, 8] [] []).chunks.length = 2
      ∧ (chunk_file [0] (fun _ => [1]) (fun _ => [2]) 2
          [7] [5, 6, 8] [] []).chunks.map FileChunk.chunk_index
        = List.range 2 := by
  have h := chunk_file_count [0] (fun _ => [1]) (fun _ => [2]) 2
    (by decide) [7] [5, 6, 8] [] []
  constructor
  · rw [h.1]
    decide
  · rw [h.2, h.1]
    rw [show calculate_chunks_needed 2 [5, 6, 8].length = 2 by decide]

/-- C7 counterexample: an empty (0-byte) file produces 0 chunks, refuting
the claimed minimum of 1 chunk. -/
theorem chunk_file_empty_counterexample :
    ¬(1 ≤ (chunk_file [0] (fun _ => [1]) (fun _ => [2]) 1024
        [7] [] [] []).chunks.length) := by decide

/-- C2: AEAD fail-closed — `decrypt_data` fails when the blob's `key_id`
differs from the fingerprint of the supplied key; altering any single symbol
of the ciphertext, or the nonce, of a blob produced by `encrypt_data` under
that key makes `decrypt_data` fail; and whenever `decrypt_data` succeeds the
returned plaintext is exactly the payload whose encryption under the
supplied key and the blob's nonce equals the blob's ciphertext — wrong
plaintext is never returned silently. -/
theorem decrypt_data_fail_closed (data key nonce : Bytes) :
    (∀ blob : EncryptedBlob, blob.key_id ≠ keyFingerprint key →
        decrypt_data blob key = none)
      ∧ (∀ (i v : Nat) (hi : i < (encrypt_data data key nonce).ciphertext.length),
          v ≠ (encrypt_data data key nonce).ciphertext.get ⟨i, hi⟩ →
          decrypt_data { encrypt_data data key nonce with
              ciphertext := (encrypt_data data key nonce).ciphertext.set i v }
            key = none)
      ∧ (∀ n2 : Bytes, n2 ≠ nonce → n2.length = nonce.length →
          decrypt_data { encrypt_data data key nonce with nonce := n2 } key
            = none)
      ∧ (∀ (blob : EncryptedBlob) (pt : Bytes), decrypt_data blob key = some pt →
          blob.ciphertext = aesgcmEncrypt key blob.nonce pt) := by
  refine ⟨?_, ?_, ?_, fun blob pt h => decrypt_data_sound blob key pt h⟩
  · intro blob hne
    rw [decrypt_data, if_neg hne]
  · intro i v hi hv
    have hv' : v ≠ (aesgcmEncrypt key nonce data)[i] := by
      simpa [encrypt_data, List.get_eq_getElem] using hv
    have heq : decrypt_data { encrypt_data data key nonce with
        ciphertext := (encrypt_data data key nonce).ciphertext.set i v } key
        = aesgcmDecrypt key nonce ((aesgcmEncrypt key nonce data).set i v) := by
      simp [decrypt_data, encrypt_data]
    rw [heq]
    exact aesgcm_tamper_ciphertext key nonce data i v
      (by simpa [encrypt_data] using hi) hv'
  · intro n2 hne hlen
    have heq : decrypt_data { encrypt_data data key nonce with nonce := n2 }
        key = aesgcmDecrypt key n2 (aesgcmEncrypt key nonce data) := by
      simp [decrypt_data, encrypt_data]
    rw [heq]
    exact aesgcm_tamper_nonce key nonce data n2 hne hlen

/-- Witness for C2 at concrete inputs: a mismatched key id, a one-symbol
ciphertext alteration, and a nonce alteration, each rejected. -/
theorem decrypt_data_fail_closed_witness :
    decrypt_data
        { ciphertext := [9], nonce := [1], algorithm := algAesGcm,
          key_id := [] } [7] = none
      ∧ decrypt_data { encrypt_data [1, 2] [7] [9] with
          ciphertext := (encrypt_data [1, 2] [7] [9]).ciphertext.set 0 5 }
          [7] = none
      ∧ decrypt_data { encrypt_data [1, 2] [7] [9] with nonce := [8] } [7]
          = none := by
  obtain ⟨h1, h2, h3, _⟩ := decrypt_data_fail_closed [1, 2] [7] [9]
  exact ⟨h1 _ (by decide), h2 0 5 (by decide) (by decide),
    h3 [8] (by decide) (by decide)⟩

/-! ### The vault state machine (`vault_core.py`) -/

/-- The verification payload dictionary built by
`VaultCore._create_verification_data`; the `prefix` key of the source is
called `prefixTag` here. -/
structure VerificationPayload where
  prefixTag : Bytes
  vault_id : Bytes
  created_at : Bytes
  version : Bytes
  password_hash : Bytes
  verification_token : Bytes
deriving DecidableEq, Repr

/-- ASCII bytes of the constant `VERIFICATION_PREFIX = "BRONTOBOX_VAULT_"`. -/
def VERIFICATION_PREFIX_BYTES : Bytes :=
  [66, 82, 79, 78, 84, 79, 66, 79, 88, 95, 86, 65, 85, 76, 84, 95]

/-- ASCII bytes of the constant `VERIFICATION_VERSION = "1.0"`. -/
def VERIFICATION_VERSION_BYTES : Bytes := [49, 46, 48]

/-- Length-prefixed field encoding, used to model JSON serialization as an
injective byte encoding. -/
def lenPrefixed (xs : Bytes) : Bytes := xs.length :: xs

/-- Model of `json.dumps(verification_payload).encode('utf-8')`: an
injective serialization of the payload fields. -/
def encodePayload (p : VerificationPayload) : Bytes :=
  lenPrefixed p.prefixTag ++ lenPrefixed p.vault_id
    ++ lenPrefixed p.created_at ++ lenPrefixed p.version
    ++ lenPrefixed p.password_hash ++ lenPrefixed p.verification_token

/-- Reads one length-prefixed field; `none` models a parse error. -/
def readField : Bytes → Option (Bytes × Bytes)
  | [] => none
  | n :: rest =>
    if n ≤ rest.length then some (rest.take n, rest.drop n) else none

/-- Model of `json.loads` for the verification payload: the partial inverse
of `encodePayload`; `none` models a `json` exception (malformed data). -/
def decodePayload (bs : Bytes) : Option VerificationPayload := do
  let (f1, r1) ← readField bs
  let (f2, r2) ← readField r1
  let (f3, r3) ← readField r2
  let (f4, r4) ← readField r3
  let (f5, r5) ← readField r4
  let (f6, r6) ← readField r5
  if r6 = [] then
    some ⟨f1, f2, f3, f4, f5, f6⟩
  else none

/-- The mutable attributes of a `VaultCore` instance. -/
structure VaultState where
  is_unlocked : Bool
  master_keys : Option MasterKeys
  user_salt : Option Bytes
  vault_id : Option Bytes
deriving DecidableEq, Repr

/-- `VaultCore.__init__`: locked, no key material. -/
def initialVaultState : VaultState :=
  { is_unlocked := false, master_keys := none, user_salt := none,
    vault_id := none }

/-- `VaultCore._verify_credentials`: decrypt the verification blob with the
freshly derived `vault_unlock` key and check prefix, version and truncated
password hash.  Returns the recovered `vault_id` on success (which the
source stores into `self.vault_id`); `none` models any failure: decrypt
error, parse error, prefix mismatch, version mismatch, or password-hash
mismatch (exceptions are caught and turn into a `False` return). -/
def verify_credentials (master_password : Bytes) (test_keys : MasterKeys)
    (verification_data : EncryptedBlob) : Option Bytes :=
  match decrypt_data verification_data test_keys.vault_unlock with
  | none => none
  | some pt =>
    match decodePayload pt with
    | none => none
    | some payload =>
      if payload.prefixTag ≠ VERIFICATION_PREFIX_BYTES then none
      else if payload.version ≠ VERIFICATION_VERSION_BYTES then none
      else if payload.password_hash ≠ (sha256 master_password).take 16 then
        none
      else some payload.vault_id

/-- `VaultCore.unlock_vault` as a state transformer returning the new state
and the boolean result.  The salt parameter is the decoded salt bytes
(base64 transport is the identity in this model); note the source assigns
`self.user_salt` before verifying. -/
def unlock_vault (st : VaultState) (master_password salt : Bytes)
    (verification_data : Option EncryptedBlob) : VaultState × Bool :=
  let st1 := { st with user_salt := some salt }
  let test_keys := derive_master_keys master_password salt
  match verification_data with
  | some vd =>
    match verify_credentials master_password test_keys vd with
    | none => ({ st1 with is_unlocked := false }, false)
    | some vid =>
      ({ st1 with
          vault_id := some vid
          master_keys := some test_keys
          is_unlocked := true }, true)
  | none =>
    ({ st1 with master_keys := some test_keys, is_unlocked := true }, true)

/-- `VaultCore.lock_vault`: clear all sensitive attributes. -/
def lock_vault (_st : VaultState) : VaultState :=
  { is_unlocked := false, master_keys := none, user_salt := none,
    vault_id := none }

/-- `VaultCore.initialize_vault`: generate salt, vault-id token,
verification token, nonce and timestamp (explicit parameters here), derive
keys, build the encrypted verification payload, and unlock.  Returns the new
state and the verification blob; the `vault_id` is `"vault_" ++ token`. -/
def initialize_vault (_st : VaultState) (master_password salt vaultTok
    verifTok nonce ts : Bytes) : VaultState × EncryptedBlob :=
  let keys := derive_master_keys master_password salt
  let vid : Bytes := [118, 97, 117, 108, 116, 95] ++ vaultTok
  let payload : VerificationPayload :=
    { prefixTag := VERIFICATION_PREFIX_BYTES, vault_id := vid,
      created_at := ts, version := VERIFICATION_VERSION_BYTES,
      password_hash := (sha256 master_password).take 16,
      verification_token := verifTok }
  let blob := encrypt_data (encodePayload payload) keys.vault_unlock nonce
  ({ is_unlocked := true, master_keys := some keys, user_salt := some salt,
     vault_id := some vid }, blob)

/-- One call into the vault state machine, with all randomness explicit. -/
inductive VaultOp where
  | initialize_vault (master_password salt vaultTok verifTok nonce ts : Bytes)
  | unlock (master_password salt : Bytes)
      (verification_data : Option EncryptedBlob)
  | lock
deriving DecidableEq, Repr

/-- Apply one vault operation, discarding the returned values. -/
def applyVaultOp (st : VaultState) : VaultOp → VaultState
  | .initialize_vault pw salt vtok vertok nonce ts =>
    (initialize_vault st pw salt vtok vertok nonce ts).1
  | .unlock pw salt vd => (unlock_vault st pw salt vd).1
  | .lock => lock_vault st

/-- Run a sequence of vault operations from a starting state. -/
def runVaultOps (st : VaultState) : List VaultOp → VaultState
  | [] => st
  | op :: ops => runVaultOps (applyVaultOp st op) ops

/-- A verification blob that can never decrypt: its `key_id` is empty, so it
mismatches every key fingerprint (fingerprints are nonempty). -/
def badVerificationBlob : EncryptedBlob :=
  { ciphertext := [0], nonce := [0], algorithm := algAesGcm, key_id := [] }

/-- C3 (amended): for every state and every password/salt/verification-blob
triple for which verification fails (decrypt failure, parse failure, prefix
mismatch, version mismatch, or password-hash mismatch), `unlock_vault`
returns failure, the instance ends Locked, and neither master keys nor
vault_id are set — but `user_salt` IS overwritten with the supplied salt as
a side effect of the failed attempt. -/
theorem unlock_vault_failure (st : VaultState) (pw salt : Bytes)
    (vd : EncryptedBlob)
    (hfail : verify_credentials pw (derive_master_keys pw salt) vd = none) :
    unlock_vault st pw salt (some vd)
      = ({ is_unlocked := false
           master_keys := st.master_keys
           user_salt := some salt
           vault_id := st.vault_id }, false) := by
  simp [unlock_vault, hfail]

/-- Witness for C3 (amended) at a concrete input: a blob whose `key_id`
cannot match, against a fresh instance. -/
theorem unlock_vault_failure_witness :
    unlock_vault initialVaultState [1] [2] (some badVerificationBlob)
      = ({ is_unlocked := false
           master_keys := none
           user_salt := some [2]
           vault_id := none }, false) :=
  unlock_vault_failure initialVaultState [1] [2] badVerificationBlob
    (by decide)

/-- C3 counterexample: after a concrete failed unlock attempt, the supplied
salt HAS been stored in `user_salt` — so the claim that no key material
(master keys, salt) is set as a side effect of a failed attempt is false. -/
theorem unlock_vault_failure_sets_salt :
    (unlock_vault initialVaultState [1] [2] (some badVerificationBlob)).2
        = false
      ∧ (unlock_vault initialVaultState [1] [2]
          (some badVerificationBlob)).1.is_unlocked = false
      ∧ ¬((unlock_vault initialVaultState [1] [2]
          (some badVerificationBlob)).1.user_salt = none) := by
  decide

/-- C4 (amended): `lock_vault` discards the master keys, the salt and the
vault id immediately and is idempotent; any operation sequence ending in
`lock_vault` leaves the instance fully cleared and Locked.  (The stronger
claimed invariant — Locked implies cleared after ANY sequence — fails after
a failed unlock; see the counterexample.) -/
theorem lock_vault_clears (st : VaultState) (ops : List VaultOp) :
    runVaultOps st (ops ++ [VaultOp.lock])
        = { is_unlocked := false
            master_keys := none
            user_salt := none
            vault_id := none }
      ∧ lock_vault (lock_vault st) = lock_vault st
      ∧ (lock_vault st).is_unlocked = false
      ∧ (lock_vault st).master_keys = none
      ∧ (lock_vault st).user_salt = none
      ∧ (lock_vault st).vault_id = none := by
  refine ⟨?_, rfl, rfl, rfl, rfl, rfl⟩
  induction ops generalizing st with
  | nil => rfl
  | cons op ops ih =>
    simp only [List.cons_append, runVaultOps]
    exact ih (applyVaultOp st op)

/-- C4 counterexample: initializing a vault and then making a failed unlock
attempt leaves the instance in the Locked state while the master keys
derived at initialization are still in memory and a salt is still set — the
claimed Locked-implies-cleared invariant does not hold. -/
theorem locked_state_retains_keys :
    (runVaultOps initialVaultState
        [VaultOp.initialize_vault [1] [2] [3] [4] [5] [6],
         VaultOp.unlock [7] [8] (some badVerificationBlob)]).is_unlocked
        = false
      ∧ ¬((runVaultOps initialVaultState
          [VaultOp.initialize_vault [1] [2] [3] [4] [5] [6],
           VaultOp.unlock [7] [8] (some badVerificationBlob)]).master_keys
          = none)
      ∧ ¬((runVaultOps initialVaultState
          [VaultOp.initialize_vault [1] [2] [3] [4] [5] [6],
           VaultOp.unlock [7] [8] (some badVerificationBlob)]).user_salt
          = none) := by
  decide

/-! ### The storage manager (`storage_manager.py`) -/

/-- One entry of `StoredFile.chunks`: where one chunk lives on Drive. -/
structure ChunkPlacement where
  chunk_index : Nat
  chunk_id : Bytes
  chunk_hash : Bytes
  chunk_size : Nat
  drive_file_id : Bytes
  drive_account : Bytes
  drive_file_name : Bytes
  uploaded_at : Bytes
deriving DecidableEq, Repr

/-- The metadata dictionary of a `StoredFile`, modelled with the keys the
source consults; `Option` fields model key presence and the `Bool` fields
model `metadata.get(key, False)` defaults. -/
structure FileMetadata where
  discovered_from_chunks : Bool
  imported_from_registry : Bool
  needs_alternative_retrieval : Bool
  encrypted_manifest : Option EncryptedBlob
  import_timestamp : Option Bytes
  accounts_used : List Bytes
  chunk_size : Option Nat
deriving DecidableEq, Repr

/-- A metadata dictionary with none of the modelled keys present. -/
def emptyMetadata : FileMetadata :=
  { discovered_from_chunks := false
    imported_from_registry := false
    needs_alternative_retrieval := false
    encrypted_manifest := none
    import_timestamp := none
    accounts_used := []
    chunk_size := none }

/-- The `StoredFile` dataclass of `storage_manager.py`. -/
structure StoredFile where
  file_id : Bytes
  original_name : Bytes
  original_size : Nat
  file_hash : Bytes
  chunks : List ChunkPlacement
  created_at : Bytes
  metadata : FileMetadata
deriving DecidableEq, Repr

/-- The in-memory `stored_files` dictionary, as an association list. -/
structure StorageState where
  stored_files : List (Bytes × StoredFile)
deriving DecidableEq, Repr

/-- Dictionary lookup: `file_id in self.stored_files` and
`self.stored_files[file_id]`. -/
def dictGet : List (Bytes × StoredFile) → Bytes → Option StoredFile
  | [], _ => none
  | p :: rest, k => if p.1 = k then some p.2 else dictGet rest k

/-- `del self.stored_files[file_id]`. -/
def dictErase : List (Bytes × StoredFile) → Bytes →
    List (Bytes × StoredFile)
  | [], _ => []
  | p :: rest, k =>
    if p.1 = k then dictErase rest k else p :: dictErase rest k

/-- `self.stored_files[file_id] = stored_file` (insert or replace). -/
def dictPut : List (Bytes × StoredFile) → Bytes → StoredFile →
    List (Bytes × StoredFile)
  | [], k, v => [(k, v)]
  | p :: rest, k, v =>
    if p.1 = k then (k, v) :: rest else p :: dictPut rest k v

/-- One Google Drive call made by the storage manager. -/
inductive BackendCall where
  | upload (account name : Bytes)
  | download (account driveFileId : Bytes)
  | deleteChunk (account driveFileId : Bytes)
deriving DecidableEq, Repr

/-- `BrontoBoxStorageManager.delete_file`: look up the file, attempt to
delete every chunk from Drive (`outcome` gives each `delete_chunk` result;
a raised exception is caught and counts as a failure), then remove the
registry entry unconditionally and return whether every chunk deletion
succeeded.  The method performs no vault-lock check, so the vault parameter
is unused — exactly as `self.vault` is never consulted in the source. -/
def delete_file (_vault : VaultState) (st : StorageState)
    (outcome : Bytes → Bytes → Bool) (file_id : Bytes) :
    StorageState × Bool × List BackendCall :=
  match dictGet st.stored_files file_id with
  | none => (st, false, [])
  | some sf =>
    let trace := sf.chunks.map fun c =>
      BackendCall.deleteChunk c.drive_account c.drive_file_id
    let deleted := (sf.chunks.filter fun c =>
      outcome c.drive_account c.drive_file_id).length
    ({ stored_files := dictErase st.stored_files file_id },
     decide (deleted = sf.chunks.length), trace)

/-- One entry of `get_available_accounts`: account id, email, and available
capacity in GB.  Capacities are modelled as exact rationals rather than
floats. -/
structure AccountInfo where
  account_id : Bytes
  email : Bytes
  available_gb : ℚ
deriving DecidableEq, Repr

/-- `BrontoBoxStorageManager.get_available_accounts`: the per-account
storage info as fetched from the auth manager and drive client (a parameter
here), sorted by available capacity, most available first (Python's stable
sort with `reverse=True`). -/
def get_available_accounts (accounts : List AccountInfo) : List AccountInfo :=
  accounts.mergeSort fun a b => decide (b.available_gb ≤ a.available_gb)

/-- The `chunk_size_bytes / (1024**3)` conversion of
`_select_account_for_chunk`. -/
def chunkSizeGB (sizeBytes : Nat) : ℚ := (sizeBytes : ℚ) / (1024 ^ 3)

/-- The suitability filter of `_select_account_for_chunk`: the account is
not excluded and `available_gb > chunk_size_gb + 0.1` (safety buffer). -/
def suitableAccount (csGB : ℚ) (excl : List Bytes) (a : AccountInfo) : Bool :=
  decide (¬ a.account_id ∈ excl) && decide (csGB + 1 / 10 < a.available_gb)

/-- `BrontoBoxStorageManager._select_account_for_chunk`: filter the sorted
account list for suitability and return the first (most available) id;
`none` when no account qualifies. -/
def select_account_for_chunk (accounts : List AccountInfo)
    (chunk_size_bytes : Nat) (exclude_accounts : List Bytes) : Option Bytes :=
  let available := get_available_accounts accounts
  let suitable := available.filter
    (suitableAccount (chunkSizeGB chunk_size_bytes) exclude_accounts)
  match suitable with
  | [] => none
  | a :: _ => some a.account_id

/-- Errors raised by the storage layer. -/
inductive StorageError where
  | vaultLocked
  | noAccounts
  | uploadFailed (chunk_index : Nat)
deriving DecidableEq, Repr

/-- The per-chunk account choice inside `store_file` (lines 297-308): used
accounts are excluded only while fewer than 2 distinct accounts have been
used; when `_select_account_for_chunk` finds nothing the code falls back to
the most-available account regardless of headroom, and raises
(`RuntimeError`, modelled `.error .noAccounts`) only when there are no
available accounts at all. -/
def choose_account_in_store (accounts : List AccountInfo) (chunk_len : Nat)
    (used_accounts : List Bytes) : Except StorageError Bytes :=
  let excl := if used_accounts.length < 2 then used_accounts else []
  match select_account_for_chunk accounts chunk_len excl with
  | some a => Except.ok a
  | none =>
    match get_available_accounts accounts with
    | [] => Except.error StorageError.noAccounts
    | a :: _ => Except.ok a.account_id

/-! ### Dictionary lemmas -/

theorem dictGet_dictErase_self (d : List (Bytes × StoredFile)) (k : Bytes) :
    dictGet (dictErase d k) k = none := by
  induction d with
  | nil => rfl
  | cons p rest ih =>
    by_cases hp : p.1 = k
    · simp only [dictErase, if_pos hp]
      exact ih
    · simp only [dictErase, if_neg hp, dictGet]
      exact ih

theorem dictGet_dictErase_ne (d : List (Bytes × StoredFile)) (k k' : Bytes)
    (h : k' ≠ k) :
    dictGet (dictErase d k) k' = dictGet d k' := by
  induction d with
  | nil => rfl
  | cons p rest ih =>
    by_cases hp : p.1 = k
    · have hpk' : ¬ p.1 = k' := fun hk => h (by rw [← hk, hp])
      simp only [dictErase, if_pos hp, dictGet, if_neg hpk']
      exact ih
    · simp only [dictErase, if_neg hp, dictGet]
      by_cases hp' : p.1 = k'
      · simp only [if_pos hp']
      · simp only [if_neg hp']
        exact ih

/-- C5 (amended): `delete_file` reports success as a single boolean that is
true exactly when every one of the N chunk deletions succeeded, but it
removes the file's registry entry unconditionally — even when some chunk
deletions failed — leaving all other registry entries unchanged; every
chunk's deletion is attempted. -/
theorem delete_file_behavior (vault : VaultState) (st : StorageState)
    (outcome : Bytes → Bytes → Bool) (fid : Bytes) (sf : StoredFile)
    (hmem : dictGet st.stored_files fid = some sf) :
    dictGet (delete_file vault st outcome fid).1.stored_files fid = none
      ∧ ((delete_file vault st outcome fid).2.1 = true ↔
          ∀ c ∈ sf.chunks, outcome c.drive_account c.drive_file_id = true)
      ∧ (∀ k, k ≠ fid →
          dictGet (delete_file vault st outcome fid).1.stored_files k
            = dictGet st.stored_files k)
      ∧ (delete_file vault st outcome fid).2.2
          = sf.chunks.map fun c =>
              BackendCall.deleteChunk c.drive_account c.drive_file_id := by
  unfold delete_file
  rw [hmem]
  refine ⟨dictGet_dictErase_self _ _, ?_, ?_, rfl⟩
  · simp only [decide_eq_true_eq]
    exact List.filter_length_eq_length
  · intro k hk
    exact dictGet_dictErase_ne _ _ _ hk

/-- A concrete three-chunk stored file, its chunks on accounts 10, 20, 30. -/
def exThreeChunkFile : StoredFile :=
  { file_id := [1]
    original_name := [2]
    original_size := 3
    file_hash := []
    chunks :=
      [{ chunk_index := 0, chunk_id := [0], chunk_hash := [], chunk_size := 1,
         drive_file_id := [100], drive_account := [10], drive_file_name := [0],
         uploaded_at := [] },
       { chunk_index := 1, chunk_id := [1], chunk_hash := [], chunk_size := 1,
         drive_file_id := [101], drive_account := [20], drive_file_name := [1],
         uploaded_at := [] },
       { chunk_index := 2, chunk_id := [2], chunk_hash := [], chunk_size := 1,
         drive_file_id := [102], drive_account := [30], drive_file_name := [2],
         uploaded_at := [] }]
    created_at := []
    metadata := emptyMetadata }

/-- The storage state holding just `exThreeChunkFile` under key `[1]`. -/
def exStorageState : StorageState :=
  { stored_files := [([1], exThreeChunkFile)] }

/-- Witness for C5 (amended): all three deletions succeed, the call returns
true and the entry is gone. -/
theorem delete_file_behavior_witness :
    dictGet (delete_file initialVaultState exStorageState (fun _ _ => true)
        [1]).1.stored_files [1] = none
      ∧ ((delete_file initialVaultState exStorageState (fun _ _ => true)
          [1]).2.1 = true ↔
          ∀ c ∈ exThreeChunkFile.chunks, (fun _ _ => true) c.drive_account
            c.drive_file_id = true)
      ∧ (∀ k, k ≠ [1] →
          dictGet (delete_file initialVaultState exStorageState
            (fun _ _ => true) [1]).1.stored_files k
            = dictGet exStorageState.stored_files k)
      ∧ (delete_file initialVaultState exStorageState (fun _ _ => true)
          [1]).2.2
          = exThreeChunkFile.chunks.map fun c =>
              BackendCall.deleteChunk c.drive_account c.drive_file_id :=
  delete_file_behavior initialVaultState exStorageState (fun _ _ => true)
    [1] exThreeChunkFile (by decide)

/-- C5 counterexample: with 2 of 3 chunk deletions succeeding (account 30
fails), `delete_file` returns failure but the registry entry for the file
HAS been removed — so no retry is possible, refuting the claim that a
partial deletion leaves the registry entry. -/
theorem delete_file_partial_removes_entry :
    (delete_file initialVaultState exStorageState
        (fun acc _ => decide (acc ≠ [30])) [1]).2.1 = false
      ∧ dictGet (delete_file initialVaultState exStorageState
          (fun acc _ => decide (acc ≠ [30])) [1]).1.stored_files [1]
          = none := by
  decide

/-- Whatever `_select_account_for_chunk` returns is a qualifying account of
maximal available capacity among the qualifying ones. -/
theorem select_account_spec (accounts : List AccountInfo) (len : Nat)
    (excl : List Bytes) (id : Bytes)
    (h : select_account_for_chunk accounts len excl = some id) :
    ∃ a, a ∈ accounts ∧ a.account_id = id
      ∧ suitableAccount (chunkSizeGB len) excl a = true
      ∧ ∀ b ∈ accounts, suitableAccount (chunkSizeGB len) excl b = true →
          b.available_gb ≤ a.available_gb := by
  simp only [select_account_for_chunk] at h
  cases hfil : (get_available_accounts accounts).filter
      (suitableAccount (chunkSizeGB len) excl) with
  | nil =>
    rw [hfil] at h
    exact absurd h (by simp)
  | cons a rest =>
    rw [hfil] at h
    have hid : a.account_id = id := by simpa using h
    have hmemf : a ∈ (get_available_accounts accounts).filter
        (suitableAccount (chunkSizeGB len) excl) := by
      rw [hfil]
      exact List.mem_cons_self a rest
    have hmema := (List.mem_filter.mp hmemf).1
    have hsuit := (List.mem_filter.mp hmemf).2
    refine ⟨a, List.mem_mergeSort.mp hmema, hid, hsuit, ?_⟩
    intro b hb hbs
    have hsorted : ((get_available_accounts accounts).filter
        (suitableAccount (chunkSizeGB len) excl)).Pairwise
        (fun x y => decide (y.available_gb ≤ x.available_gb) = true) := by
      apply List.Pairwise.filter
      apply List.sorted_mergeSort
      · intro x y z hxy hyz
        simp only [decide_eq_true_eq] at hxy hyz ⊢
        exact le_trans hyz hxy
      · intro x y
        rcases le_total x.available_gb y.available_gb with hxy | hyx
        · simp [hxy]
        · simp [hyx]
    have hbf : b ∈ (get_available_accounts accounts).filter
        (suitableAccount (chunkSizeGB len) excl) :=
      List.mem_filter.mpr ⟨List.mem_mergeSort.mpr hb, hbs⟩
    rw [hfil] at hbf hsorted
    rcases List.mem_cons.mp hbf with hba | hbr
    · rw [hba]
    · have := (List.pairwise_cons.mp hsorted).1 b hbr
      simpa using this

/-- C6 (amended): within `store_file`'s per-chunk account choice, accounts
are ranked by available capacity descending and the most-available
qualifying account is chosen, where qualifying means capacity above chunk
size plus a 0.1 GB buffer and — only WHILE fewer than 2 distinct accounts
have been used for the current file — not being an already-used account
(once 2 accounts are in use the exclusion is dropped, not applied); and
when no account qualifies, the chunk is not refused: the code falls back to
the most-available account regardless of headroom and fails only when there
are no available accounts at all. -/
theorem choose_account_in_store_behavior (accounts : List AccountInfo)
    (chunk_len : Nat) (used : List Bytes) :
    (∀ id, select_account_for_chunk accounts chunk_len
        (if used.length < 2 then used else []) = some id →
      choose_account_in_store accounts chunk_len used = Except.ok id
        ∧ ∃ a, a ∈ accounts ∧ a.account_id = id
            ∧ suitableAccount (chunkSizeGB chunk_len)
                (if used.length < 2 then used else []) a = true
            ∧ ∀ b ∈ accounts,
                suitableAccount (chunkSizeGB chunk_len)
                  (if used.length < 2 then used else []) b = true →
                b.available_gb ≤ a.available_gb)
      ∧ (select_account_for_chunk accounts chunk_len
          (if used.length < 2 then used else []) = none →
        (choose_account_in_store accounts chunk_len used
            = Except.error StorageError.noAccounts ↔ accounts = [])
          ∧ (accounts ≠ [] → ∃ a, a ∈ accounts
              ∧ choose_account_in_store accounts chunk_len used
                  = Except.ok a.account_id
              ∧ ∀ b ∈ accounts, b.available_gb ≤ a.available_gb)) := by
  constructor
  · intro id hsel
    refine ⟨?_, select_account_spec accounts chunk_len _ id hsel⟩
    simp only [choose_account_in_store, hsel]
  · intro hsel
    cases hsort : get_available_accounts accounts with
    | nil =>
      have hacc : accounts = [] := by
        have hperm := List.mergeSort_perm accounts
          (fun a b => decide (b.available_gb ≤ a.available_gb))
        rw [show accounts.mergeSort
            (fun a b => decide (b.available_gb ≤ a.available_gb))
            = get_available_accounts accounts from rfl, hsort] at hperm
        exact (hperm.symm).eq_nil
      constructor
      · simp only [choose_account_in_store, hsel, hsort]
        exact ⟨fun _ => hacc, fun _ => trivial⟩
      · intro hne
        exact absurd hacc hne
    | cons a rest =>
      have hpair := @List.sorted_mergeSort AccountInfo
        (fun a b : AccountInfo =>
          decide (b.available_gb ≤ a.available_gb))
        (by
          intro x y z hxy hyz
          simp only [decide_eq_true_eq] at hxy hyz ⊢
          exact le_trans hyz hxy)
        (by
          intro x y
          rcases le_total x.available_gb y.available_gb with hxy | hyx
          · simp [hxy]
          · simp [hyx])
        accounts
      rw [show accounts.mergeSort
          (fun a b : AccountInfo => decide (b.available_gb ≤ a.available_gb))
          = get_available_accounts accounts from rfl, hsort] at hpair
      have hch : choose_account_in_store accounts chunk_len used
          = Except.ok a.account_id := by
        simp only [choose_account_in_store, hsel, hsort]
      constructor
      · constructor
        · intro habs
          rw [hch] at habs
          exact absurd habs (by simp)
        · intro hacc
          rw [show get_available_accounts accounts
              = accounts.mergeSort
                (fun a b => decide (b.available_gb ≤ a.available_gb))
              from rfl, hacc] at hsort
          exact absurd hsort (by simp)
      · intro _
        refine ⟨a, ?_, ?_, ?_⟩
        · have ham : a ∈ get_available_accounts accounts := by
            rw [hsort]
            exact List.mem_cons_self a rest
          exact List.mem_mergeSort.mp ham
        · exact hch
        · intro b hb
          have hbm : b ∈ get_available_accounts accounts :=
            List.mem_mergeSort.mpr hb
          rw [hsort] at hbm
          rcases List.mem_cons.mp hbm with hba | hbr
          · rw [hba]
          · have := (List.pairwise_cons.mp hpair).1 b hbr
            simpa using this

/-- One GiB is exactly 1 GB-unit in the conversion used by
`_select_account_for_chunk`. -/
theorem chunkSizeGB_gib : chunkSizeGB (1024 ^ 3) = 1 := by
  simp only [chunkSizeGB]
  norm_num

/-- Witness for C6 (amended): two ample accounts, none used yet — the
most-available one (10 GB) is selected for a 1 GiB chunk. -/
theorem choose_account_in_store_behavior_witness :
    choose_account_in_store
      [{ account_id := [1], email := [101], available_gb := 10 },
       { account_id := [2], email := [102], available_gb := 5 }]
      (1024 ^ 3) [] = Except.ok [1] := by
  have hsort : get_available_accounts
      [{ account_id := [1], email := [101], available_gb := 10 },
       { account_id := [2], email := [102], available_gb := 5 }]
      = [{ account_id := [1], email := [101], available_gb := 10 },
         { account_id := [2], email := [102], available_gb := 5 }] := by
    apply List.mergeSort_of_sorted
    refine List.Pairwise.cons ?_
      (List.Pairwise.cons (fun b hb => absurd hb (List.not_mem_nil b))
        List.Pairwise.nil)
    intro b hb
    rw [List.mem_singleton.mp hb]
    decide
  have hsA : suitableAccount (chunkSizeGB (1024 ^ 3)) []
      { account_id := [1], email := [101], available_gb := 10 } = true := by
    simp only [suitableAccount, Bool.and_eq_true, decide_eq_true_eq]
    refine ⟨List.not_mem_nil _, ?_⟩
    show chunkSizeGB (1024 ^ 3) + 1 / 10 < 10
    rw [chunkSizeGB_gib]
    norm_num
  have hsel : select_account_for_chunk
      [{ account_id := [1], email := [101], available_gb := 10 },
       { account_id := [2], email := [102], available_gb := 5 }]
      (1024 ^ 3)
      (if ([] : List Bytes).length < 2 then ([] : List Bytes) else [])
      = some [1] := by
    show select_account_for_chunk _ (1024 ^ 3) [] = some [1]
    simp only [select_account_for_chunk]
    rw [hsort, List.filter_cons_of_pos hsA]
  exact (((choose_account_in_store_behavior _ (1024 ^ 3) []).1 [1]) hsel).1

/-- C6 counterexample: (a) with a single account far below the chunk size
plus margin, no account qualifies, yet the chunk is placed on it anyway
rather than the store failing with a terminal error; (b) with three ample
accounts and 2 distinct accounts already used, nothing is excluded and the
already-used most-available account is chosen again even though an unused
account qualifies — the claimed exclusion condition is inverted in the
code. -/
theorem choose_account_counterexample :
    (select_account_for_chunk
        [{ account_id := [1], email := [101], available_gb := 1 / 20 }]
        (1024 ^ 3) [] = none
      ∧ choose_account_in_store
          [{ account_id := [1], email := [101], available_gb := 1 / 20 }]
          (1024 ^ 3) [] = Except.ok [1])
      ∧ choose_account_in_store
          [{ account_id := [1], email := [101], available_gb := 10 },
           { account_id := [2], email := [102], available_gb := 5 },
           { account_id := [3], email := [103], available_gb := 4 }]
          (1024 ^ 3) [[1], [2]] = Except.ok [1] := by
  have hsortT : get_available_accounts
      [{ account_id := [1], email := [101], available_gb := 1 / 20 }]
      = [{ account_id := [1], email := [101], available_gb := 1 / 20 }] := by
    simp [get_available_accounts]
  have hsT : suitableAccount (chunkSizeGB (1024 ^ 3)) []
      { account_id := [1], email := [101], available_gb := 1 / 20 }
      = false := by
    have hlt : ¬ (chunkSizeGB (1024 ^ 3) + 1 / 10 < (1 : ℚ) / 20) := by
      rw [chunkSizeGB_gib]
      norm_num
    show (decide (¬ ([1] : Bytes) ∈ ([] : List Bytes))
        && decide (chunkSizeGB (1024 ^ 3) + 1 / 10 < (1 : ℚ) / 20)) = false
    rw [decide_eq_false hlt, Bool.and_false]
  have hselT : select_account_for_chunk
      [{ account_id := [1], email := [101], available_gb := 1 / 20 }]
      (1024 ^ 3) [] = none := by
    simp only [select_account_for_chunk]
    rw [hsortT, List.filter_cons_of_neg (by rw [hsT]; simp), List.filter_nil]
  have hsort3 : get_available_accounts
      [{ account_id := [1], email := [101], available_gb := 10 },
       { account_id := [2], email := [102], available_gb := 5 },
       { account_id := [3], email := [103], available_gb := 4 }]
      = [{ account_id := [1], email := [101], available_gb := 10 },
         { account_id := [2], email := [102], available_gb := 5 },
         { account_id := [3], email := [103], available_gb := 4 }] := by
    apply List.mergeSort_of_sorted
    refine List.Pairwise.cons ?_ (List.Pairwise.cons ?_
      (List.Pairwise.cons (fun b hb => absurd hb (List.not_mem_nil b))
        List.Pairwise.nil))
    · intro b hb
      rcases List.mem_cons.mp hb with h1 | h1
      · rw [h1]
        decide
      · rw [List.mem_singleton.mp h1]
        decide
    · intro b hb
      rw [List.mem_singleton.mp hb]
      decide
  have hsA3 : suitableAccount (chunkSizeGB (1024 ^ 3)) []
      { account_id := [1], email := [101], available_gb := 10 } = true := by
    simp only [suitableAccount, Bool.and_eq_true, decide_eq_true_eq]
    refine ⟨List.not_mem_nil _, ?_⟩
    show chunkSizeGB (1024 ^ 3) + 1 / 10 < 10
    rw [chunkSizeGB_gib]
    norm_num
  have hsel3 : select_account_for_chunk
      [{ account_id := [1], email := [101], available_gb := 10 },
       { account_id := [2], email := [102], available_gb := 5 },
       { account_id := [3], email := [103], available_gb := 4 }]
      (1024 ^ 3) [] = some [1] := by
    simp only [select_account_for_chunk]
    rw [hsort3, List.filter_cons_of_pos hsA3]
  refine ⟨⟨hselT, ?_⟩, ?_⟩
  · simp only [choose_account_in_store]
    rw [show (if ([] : List Bytes).length < 2 then ([] : List Bytes) else [])
        = [] from rfl, hselT, hsortT]
  · simp only [choose_account_in_store]
    rw [show (if ([[1], [2]] : List Bytes).length < 2
          then ([[1], [2]] : List Bytes) else []) = [] from rfl, hsel3]

/-! ### Serialization models for manifests and the registry -/

/-- Reads a single number (sizes, indices) from the serialized form. -/
def readNatField : Bytes → Option (Nat × Bytes)
  | [] => none
  | n :: rest => some (n, rest)

/-- Reads a boolean flag. -/
def readBoolField : Bytes → Option (Bool × Bytes)
  | 0 :: rest => some (false, rest)
  | 1 :: rest => some (true, rest)
  | _ => none

/-- Reads an optional sub-value. -/
def readOptionField (readItem : Bytes → Option (α × Bytes)) :
    Bytes → Option (Option α × Bytes)
  | 0 :: rest => some (none, rest)
  | 1 :: rest => (readItem rest).map fun p => (some p.1, p.2)
  | _ => none

/-- Reads `n` consecutive sub-values. -/
def readCount (readItem : Bytes → Option (α × Bytes)) :
    Nat → Bytes → Option (List α × Bytes)
  | 0, bs => some ([], bs)
  | n + 1, bs => do
    let (a, r) ← readItem bs
    let (as, r2) ← readCount readItem n r
    some (a :: as, r2)

/-- Length-prefixed serialization of an `EncryptedBlob`. -/
def encodeBlob (b : EncryptedBlob) : Bytes :=
  lenPrefixed b.ciphertext ++ lenPrefixed b.nonce ++ lenPrefixed b.algorithm
    ++ lenPrefixed b.key_id

/-- Reads an `EncryptedBlob`. -/
def readBlob (bs : Bytes) : Option (EncryptedBlob × Bytes) := do
  let (ct, r1) ← readField bs
  let (no, r2) ← readField r1
  let (alg, r3) ← readField r2
  let (kid, r4) ← readField r3
  some ({ ciphertext := ct, nonce := no, algorithm := alg, key_id := kid }, r4)

/-- Serialization of one manifest chunk entry. -/
def encodeChunk (c : FileChunk) : Bytes :=
  lenPrefixed c.chunk_id ++ [c.chunk_index, c.chunk_size]
    ++ lenPrefixed c.chunk_hash ++ encodeBlob c.encrypted_data

/-- Reads one manifest chunk entry. -/
def readChunk (bs : Bytes) : Option (FileChunk × Bytes) := do
  let (cid, r1) ← readField bs
  let (ci, r2) ← readNatField r1
  let (cs, r3) ← readNatField r2
  let (ch, r4) ← readField r3
  let (ed, r5) ← readBlob r4
  some ({ chunk_id := cid
          chunk_index := ci
          chunk_size := cs
          chunk_hash := ch
          encrypted_data := ed }, r5)

/-- Model of `json.dumps(manifest)` in `VaultCore.encrypt_file`: an
injective serialization of the manifest. -/
def encodeManifest (m : FileManifest) : Bytes :=
  lenPrefixed m.file_name ++ [m.file_size] ++ lenPrefixed m.file_hash
    ++ [m.num_chunks, m.chunk_size]
    ++ (m.chunks.length :: (m.chunks.map encodeChunk).flatten)
    ++ lenPrefixed m.created_at ++ lenPrefixed m.modified_at

/-- Model of `json.loads` over a decrypted manifest: partial inverse of
`encodeManifest`; `none` models a parse exception. -/
def decodeManifest (bs : Bytes) : Option FileManifest := do
  let (fn, r1) ← readField bs
  let (fs, r2) ← readNatField r1
  let (fh, r3) ← readField r2
  let (nc, r4) ← readNatField r3
  let (csz, r5) ← readNatField r4
  let (k, r6) ← readNatField r5
  let (chs, r7) ← readCount readChunk k r6
  let (ca, r8) ← readField r7
  let (ma, r9) ← readField r8
  if r9 = [] then
    some { file_name := fn
           file_size := fs
           file_hash := fh
           num_chunks := nc
           chunk_size := csz
           chunks := chs
           created_at := ca
           modified_at := ma }
  else none

/-- Reads one chunk-placement record of a serialized `StoredFile`. -/
def readPlacement (bs : Bytes) : Option (ChunkPlacement × Bytes) := do
  let (ci, r1) ← readNatField bs
  let (cid, r2) ← readField r1
  let (ch, r3) ← readField r2
  let (cs, r4) ← readNatField r3
  let (dfi, r5) ← readField r4
  let (da, r6) ← readField r5
  let (dfn, r7) ← readField r6
  let (ua, r8) ← readField r7
  some ({ chunk_index := ci
          chunk_id := cid
          chunk_hash := ch
          chunk_size := cs
          drive_file_id := dfi
          drive_account := da
          drive_file_name := dfn
          uploaded_at := ua }, r8)

/-- Reads the metadata dictionary of a serialized `StoredFile`. -/
def readMetadata (bs : Bytes) : Option (FileMetadata × Bytes) := do
  let (dc, r1) ← readBoolField bs
  let (im, r2) ← readBoolField r1
  let (na, r3) ← readBoolField r2
  let (em, r4) ← readOptionField readBlob r3
  let (its, r5) ← readOptionField readField r4
  let (nacc, r6) ← readNatField r5
  let (accs, r7) ← readCount readField nacc r6
  let (csz, r8) ← readOptionField readNatField r7
  some ({ discovered_from_chunks := dc
          imported_from_registry := im
          needs_alternative_retrieval := na
          encrypted_manifest := em
          import_timestamp := its
          accounts_used := accs
          chunk_size := csz }, r8)

/-- Model of `StoredFile.from_dict`: reads one stored-file record; `none`
models a `KeyError`/type exception on malformed data. -/
def readStoredFile (bs : Bytes) : Option (StoredFile × Bytes) := do
  let (fid, r1) ← readField bs
  let (onm, r2) ← readField r1
  let (osz, r3) ← readNatField r2
  let (fh, r4) ← readField r3
  let (nch, r5) ← readNatField r4
  let (chs, r6) ← readCount readPlacement nch r5
  let (ca, r7) ← readField r6
  let (md, r8) ← readMetadata r7
  some ({ file_id := fid
          original_name := onm
          original_size := osz
          file_hash := fh
          chunks := chs
          created_at := ca
          metadata := md }, r8)

/-- Reads one `file_id → StoredFile` binding of the serialized registry. -/
def readRegEntry (bs : Bytes) : Option ((Bytes × StoredFile) × Bytes) := do
  let (k, r1) ← readField bs
  let (sf, r2) ← readStoredFile r1
  some ((k, sf), r2)

/-- Model of `json.loads` + per-entry `StoredFile.from_dict` over the
decrypted registry (`load_file_registry`): parse the serialized
`file_id → StoredFile` mapping; `none` models any exception (malformed
JSON, missing keys). -/
def decodeRegistry (bs : Bytes) : Option (List (Bytes × StoredFile)) := do
  let (n, r1) ← readNatField bs
  let (entries, r2) ← readCount readRegEntry n r1
  if r2 = [] then some entries else none

/-! ### Vault file operations and the storage orchestration -/

/-- The dictionary returned by `VaultCore.encrypt_file`. -/
structure EncryptResult where
  file_manifest : FileManifest
  encrypted_manifest : EncryptedBlob
  total_chunks : Nat
  total_size : Nat
deriving DecidableEq, Repr

/-- `VaultCore.encrypt_file`: raise (`.error .vaultLocked`) unless unlocked
with keys in memory; chunk the file content with the `file_encryption` key
(`M` is the chunker instance's `max_chunk_size`) and encrypt the serialized
manifest with the `metadata_encryption` key under `manifestNonce`. -/
def encrypt_file (vault : VaultState) (cid non : Nat → Bytes)
    (manifestNonce : Bytes) (M : Nat)
    (fileName content ctime mtime : Bytes) :
    Except StorageError EncryptResult :=
  match vault.master_keys, vault.is_unlocked with
  | some keys, true =>
    let manifest := chunk_file keys.file_encryption cid non M fileName
      content ctime mtime
    let em := encrypt_data (encodeManifest manifest)
      keys.metadata_encryption manifestNonce
    Except.ok { file_manifest := manifest
                encrypted_manifest := em
                total_chunks := manifest.num_chunks
                total_size := manifest.file_size }
  | _, _ => Except.error StorageError.vaultLocked

/-- The argument dictionary of `VaultCore.decrypt_file`: either or both of
the `encrypted_manifest` and `file_manifest` keys may be present. -/
structure ManifestPackage where
  file_manifest : Option FileManifest
  encrypted_manifest : Option EncryptedBlob
deriving DecidableEq, Repr

/-- `VaultCore.decrypt_file`: raise unless unlocked with keys; prefer the
encrypted manifest (decrypting and parsing it), else use the plain
manifest; reconstruct with the `file_encryption` key.  `.ok (some bytes)`
models a `True` return with `bytes` written; `.ok none` models a `False`
return (all exceptions are caught). -/
def decrypt_file (vault : VaultState) (pkg : ManifestPackage) :
    Except StorageError (Option Bytes) :=
  match vault.master_keys, vault.is_unlocked with
  | some keys, true =>
    match pkg.encrypted_manifest with
    | some em =>
      match decrypt_data em keys.metadata_encryption with
      | none => Except.ok none
      | some pt =>
        match decodeManifest pt with
        | none => Except.ok none
        | some m => Except.ok (reconstruct_file m keys.file_encryption)
    | none =>
      match pkg.file_manifest with
      | some m => Except.ok (reconstruct_file m keys.file_encryption)
      | none => Except.ok none
  | _, _ => Except.error StorageError.vaultLocked

/-- The result of `drive_client.upload_chunk`. -/
structure DriveUpload where
  file_id : Bytes
  name : Bytes
deriving DecidableEq, Repr

/-- ASCII bytes of the `"brontobox_"` file-id tag. -/
def brontoboxTag : Bytes := [98, 114, 111, 110, 116, 111, 98, 111, 120, 95]

/-- The chunk object name `f"{file_id}_chunk_{i:03d}_{chunk_id}.enc"`,
modelled injectively. -/
def mkChunkName (fid : Bytes) (i : Nat) (chunk_id : Bytes) : Bytes :=
  fid ++ [95, i] ++ chunk_id

/-- The chunk-upload loop of `store_file`: per chunk, choose an account
(used accounts are excluded only while fewer than 2 distinct accounts are
in use), upload (the `upload` oracle returns `none` for a raised exception,
which propagates and aborts the store), and accumulate placement records,
the used-account list and the backend trace.  `i` is the `enumerate`
counter. -/
def storeChunksLoop (accounts : List AccountInfo)
    (upload : Bytes → Bytes → Option DriveUpload) (fid now : Bytes) :
    List FileChunk → Nat → List Bytes → List ChunkPlacement →
    List BackendCall →
    Except StorageError (List ChunkPlacement × List Bytes × List BackendCall)
  | [], _, used, placed, trace => Except.ok (placed, used, trace)
  | c :: cs, i, used, placed, trace =>
    let chunk_data := c.encrypted_data.ciphertext
    match choose_account_in_store accounts chunk_data.length used with
    | Except.error e => Except.error e
    | Except.ok account =>
      let name := mkChunkName fid i c.chunk_id
      match upload account name with
      | none => Except.error (StorageError.uploadFailed i)
      | some du =>
        storeChunksLoop accounts upload fid now cs (i + 1)
          (if account ∈ used then used else used ++ [account])
          (placed ++ [{ chunk_index := i
                        chunk_id := c.chunk_id
                        chunk_hash := c.chunk_hash
                        chunk_size := chunk_data.length
                        drive_file_id := du.file_id
                        drive_account := account
                        drive_file_name := du.name
                        uploaded_at := now }])
          (trace ++ [BackendCall.upload account name])

/-- `BrontoBoxStorageManager.store_file`: reject when the vault is locked
(before any encryption or upload), encrypt and chunk via
`VaultCore.encrypt_file`, upload every chunk, then insert the `StoredFile`
record — with the encrypted manifest, chunk size and used accounts in its
metadata — into the registry.  `fidTok` models `secrets.token_hex(16)`.
Returns the new state, the file id and the backend trace. -/
def store_file (vault : VaultState) (st : StorageState)
    (accounts : List AccountInfo)
    (upload : Bytes → Bytes → Option DriveUpload)
    (cid non : Nat → Bytes) (manifestNonce fidTok : Bytes) (M : Nat)
    (fileName content ctime mtime now : Bytes) :
    Except StorageError (StorageState × Bytes × List BackendCall) :=
  if vault.is_unlocked = false then Except.error StorageError.vaultLocked
  else
    match encrypt_file vault cid non manifestNonce M fileName content
        ctime mtime with
    | Except.error e => Except.error e
    | Except.ok er =>
      let fid := brontoboxTag ++ fidTok
      match storeChunksLoop accounts upload fid now
          er.file_manifest.chunks 0 [] [] [] with
      | Except.error e => Except.error e
      | Except.ok (placed, used, trace) =>
        let sf : StoredFile :=
          { file_id := fid
            original_name := er.file_manifest.file_name
            original_size := er.file_manifest.file_size
            file_hash := er.file_manifest.file_hash
            chunks := placed
            created_at := now
            metadata :=
              { discovered_from_chunks := false
                imported_from_registry := false
                needs_alternative_retrieval := false
                encrypted_manifest := some er.encrypted_manifest
                import_timestamp := none
                accounts_used := used
                chunk_size := some M } }
        Except.ok ({ stored_files := dictPut st.stored_files fid sf },
          fid, trace)

/-- The outcome of a `retrieve_file` call: the boolean return value, the
bytes left at the output path (if any), and the Drive calls made. -/
structure RetrieveOutcome where
  ok : Bool
  output : Option Bytes
  trace : List BackendCall
deriving DecidableEq, Repr

/-- The sequential chunk-download loop shared by retrieval Methods 2 and 3:
stops at the first failed download (`none` models a raised exception, which
the caller catches and turns into `False`). -/
def downloadChunksLoop (download : Bytes → Bytes → Option Bytes) :
    List ChunkPlacement → List Bytes → List BackendCall →
    Bool × List Bytes × List BackendCall
  | [], acc, trace => (true, acc, trace)
  | c :: cs, acc, trace =>
    match download c.drive_account c.drive_file_id with
    | none => (false, acc,
        trace ++ [BackendCall.download c.drive_account c.drive_file_id])
    | some b => downloadChunksLoop download cs (acc ++ [b])
        (trace ++ [BackendCall.download c.drive_account c.drive_file_id])

/-- `_retrieve_from_chunk_reconstruction` (Method 2): download the chunks in
`chunk_index` order and write their raw — still encrypted — concatenation
to the output path, returning `True`; no decryption and no hash
verification happens on this path. -/
def retrieve_from_chunk_reconstruction
    (download : Bytes → Bytes → Option Bytes) (sf : StoredFile) :
    RetrieveOutcome :=
  let sorted := sf.chunks.mergeSort fun a b =>
    decide (a.chunk_index ≤ b.chunk_index)
  let r := downloadChunksLoop download sorted [] []
  if r.1 then { ok := true, output := some r.2.1.flatten, trace := r.2.2 }
  else { ok := false, output := none, trace := r.2.2 }

/-- `_retrieve_discovered_file` (Method 3): download the chunks in stored
order (no sort), write the raw concatenation, return `True`; again no
decryption and no verification. -/
def retrieve_discovered_file (download : Bytes → Bytes → Option Bytes)
    (sf : StoredFile) : RetrieveOutcome :=
  let r := downloadChunksLoop download sf.chunks [] []
  if r.1 then { ok := true, output := some r.2.1.flatten, trace := r.2.2 }
  else { ok := false, output := none, trace := r.2.2 }

/-- The download loop of `_retrieve_with_manifest` (Method 1), collecting a
`chunk_index → bytes` dictionary. -/
def downloadDictLoop (download : Bytes → Bytes → Option Bytes) :
    List ChunkPlacement → List (Nat × Bytes) → List BackendCall →
    Bool × List (Nat × Bytes) × List BackendCall
  | [], acc, trace => (true, acc, trace)
  | c :: cs, acc, trace =>
    match download c.drive_account c.drive_file_id with
    | none => (false, acc,
        trace ++ [BackendCall.download c.drive_account c.drive_file_id])
    | some b => downloadDictLoop download cs (acc ++ [(c.chunk_index, b)])
        (trace ++ [BackendCall.download c.drive_account c.drive_file_id])

/-- Lookup in the downloaded-chunks dictionary. -/
def natLookup : List (Nat × Bytes) → Nat → Option Bytes
  | [], _ => none
  | p :: rest, k => if p.1 = k then some p.2 else natLookup rest k

/-- `_retrieve_with_manifest` (Method 1): download all chunks, decrypt and
parse the stored encrypted manifest, substitute the downloaded ciphertexts
into the manifest chunks by position, and call `VaultCore.decrypt_file` on
a package carrying both the updated plain manifest and the original
encrypted manifest — `decrypt_file` then prefers the encrypted manifest and
reconstructs from it.  All failures return `False`. -/
def retrieve_with_manifest (vault : VaultState)
    (download : Bytes → Bytes → Option Bytes) (sf : StoredFile)
    (em : EncryptedBlob) : RetrieveOutcome :=
  let r := downloadDictLoop download sf.chunks [] []
  if r.1 = false then { ok := false, output := none, trace := r.2.2 }
  else
    match vault.master_keys with
    | none => { ok := false, output := none, trace := r.2.2 }
    | some keys =>
      match decrypt_data em keys.metadata_encryption with
      | none => { ok := false, output := none, trace := r.2.2 }
      | some pt =>
        match decodeManifest pt with
        | none => { ok := false, output := none, trace := r.2.2 }
        | some fm =>
          let updated := fm.chunks.enum.map fun p =>
            match natLookup r.2.1 p.1 with
            | some b => { p.2 with encrypted_data :=
                { p.2.encrypted_data with ciphertext := b } }
            | none => p.2
          let pkg : ManifestPackage :=
            { file_manifest := some { fm with chunks := updated }
              encrypted_manifest := some em }
          match decrypt_file vault pkg with
          | Except.error _ => { ok := false, output := none, trace := r.2.2 }
          | Except.ok none => { ok := false, output := none, trace := r.2.2 }
          | Except.ok (some out) =>
            { ok := true, output := some out, trace := r.2.2 }

/-- `BrontoBoxStorageManager.retrieve_file`: reject when the vault is
locked; `False` when the file id is unknown; otherwise dispatch — Method 1
when an encrypted manifest is present and the entry is not discovered,
Method 2 when the entry is imported or has chunk records, Method 3
otherwise. -/
def retrieve_file (vault : VaultState) (st : StorageState)
    (download : Bytes → Bytes → Option Bytes) (file_id : Bytes) :
    Except StorageError RetrieveOutcome :=
  if vault.is_unlocked = false then Except.error StorageError.vaultLocked
  else
    match dictGet st.stored_files file_id with
    | none => Except.ok { ok := false, output := none, trace := [] }
    | some sf =>
      let is_discovered := sf.metadata.discovered_from_chunks
      let is_imported := sf.metadata.imported_from_registry
      match sf.metadata.encrypted_manifest with
      | some em =>
        if is_discovered = false then
          Except.ok (retrieve_with_manifest vault download sf em)
        else if is_imported || !(sf.chunks.length = 0) then
          Except.ok (retrieve_from_chunk_reconstruction download sf)
        else Except.ok (retrieve_discovered_file download sf)
      | none =>
        if is_imported || !(sf.chunks.length = 0) then
          Except.ok (retrieve_from_chunk_reconstruction download sf)
        else Except.ok (retrieve_discovered_file download sf)

/-- The per-entry metadata rewrite of `load_file_registry`: mark the entry
as imported (not discovered) with an import timestamp; entries missing the
encrypted manifest are downgraded to discovered and flagged for alternative
retrieval. -/
def markImported (now : Bytes) (sf : StoredFile) : StoredFile :=
  let md1 := { sf.metadata with
    discovered_from_chunks := false
    imported_from_registry := true
    import_timestamp := some now }
  let md2 :=
    match md1.encrypted_manifest with
    | none => { md1 with
        discovered_from_chunks := true
        needs_alternative_retrieval := true }
    | some _ => md1
  { sf with metadata := md2 }

/-- `BrontoBoxStorageManager.load_file_registry`: raise when the vault is
locked; decrypt the registry blob with the `metadata_encryption` key, parse
it, mark every entry imported, and only then replace the whole in-memory
mapping.  Any decrypt or parse failure is caught and returns `False`,
leaving the mapping untouched. -/
def load_file_registry (vault : VaultState) (st : StorageState)
    (blob : EncryptedBlob) (now : Bytes) :
    Except StorageError (StorageState × Bool) :=
  if vault.is_unlocked = false then Except.error StorageError.vaultLocked
  else
    match vault.master_keys with
    | none => Except.ok (st, false)
    | some keys =>
      match decrypt_data blob keys.metadata_encryption with
      | none => Except.ok (st, false)
      | some pt =>
        match decodeRegistry pt with
        | none => Except.ok (st, false)
        | some entries =>
          Except.ok ({ stored_files := entries.map fun p =>
            (p.1, markImported now p.2) }, true)

deriving instance DecidableEq for Except

/-- C8: registry load atomicity — whenever `load_file_registry` fails
(wrong key, integrity mismatch, or malformed content, all surfacing as a
`False` return), the previously loaded registry contents are left
completely unchanged: there is no partial replacement of the
`file_id → StoredFile` mapping. -/
theorem load_file_registry_atomic (vault : VaultState) (st : StorageState)
    (blob : EncryptedBlob) (now : Bytes) (st' : StorageState)
    (h : load_file_registry vault st blob now = Except.ok (st', false)) :
    st' = st := by
  unfold load_file_registry at h
  split at h
  · exact absurd h (by simp)
  · split at h
    · exact ((Prod.ext_iff.mp (Except.ok.inj h)).1).symm
    · split at h
      · exact ((Prod.ext_iff.mp (Except.ok.inj h)).1).symm
      · split at h
        · exact ((Prod.ext_iff.mp (Except.ok.inj h)).1).symm
        · exact absurd (Prod.ext_iff.mp (Except.ok.inj h)).2 (by simp)

/-- A concretely initialized (hence unlocked, with keys) vault. -/
def exUnlockedVault : VaultState :=
  (initialize_vault initialVaultState [1] [2] [3] [4] [5] [6]).1

/-- Witness for C8 at a concrete input: loading a blob whose `key_id`
cannot match any key fails and leaves the one-file registry unchanged. -/
theorem load_file_registry_atomic_witness :
    load_file_registry exUnlockedVault exStorageState badVerificationBlob []
        = Except.ok (exStorageState, false)
      ∧ exStorageState = exStorageState :=
  ⟨by decide, load_file_registry_atomic exUnlockedVault exStorageState
      badVerificationBlob [] exStorageState (by decide)⟩

/-- C9 (amended): `store_file`, `retrieve_file`, `encrypt_file`,
`decrypt_file` and `load_file_registry` all reject a Locked vault up
front — returning the locked error before any encryption, decryption or
backend chunk operation — but `delete_file` performs no lock check at all
(see the counterexample). -/
theorem locked_vault_rejected (vault : VaultState)
    (hlocked : vault.is_unlocked = false) (st : StorageState)
    (accounts : List AccountInfo)
    (upload : Bytes → Bytes → Option DriveUpload)
    (cid non : Nat → Bytes) (mn ftok : Bytes) (M : Nat)
    (fn content ct mt now : Bytes)
    (download : Bytes → Bytes → Option Bytes) (fid : Bytes)
    (pkg : ManifestPackage) (blob : EncryptedBlob) :
    store_file vault st accounts upload cid non mn ftok M fn content ct mt
        now = Except.error StorageError.vaultLocked
      ∧ retrieve_file vault st download fid
          = Except.error StorageError.vaultLocked
      ∧ encrypt_file vault cid non mn M fn content ct mt
          = Except.error StorageError.vaultLocked
      ∧ decrypt_file vault pkg = Except.error StorageError.vaultLocked
      ∧ load_file_registry vault st blob now
          = Except.error StorageError.vaultLocked := by
  refine ⟨?_, ?_, ?_, ?_, ?_⟩
  · simp [store_file, hlocked]
  · simp [retrieve_file, hlocked]
  · cases hk : vault.master_keys with
    | none => simp [encrypt_file, hk]
    | some k => simp [encrypt_file, hk, hlocked]
  · cases hk : vault.master_keys with
    | none => simp [decrypt_file, hk]
    | some k => simp [decrypt_file, hk, hlocked]
  · simp [load_file_registry, hlocked]

/-- Witness for C9 (amended) at concrete inputs against a fresh (locked)
instance. -/
theorem locked_vault_rejected_witness :
    store_file initialVaultState { stored_files := [] } [] (fun _ _ => none)
        (fun _ => []) (fun _ => []) [] [] 1 [] [] [] [] []
        = Except.error StorageError.vaultLocked
      ∧ retrieve_file initialVaultState { stored_files := [] }
          (fun _ _ => none) [] = Except.error StorageError.vaultLocked
      ∧ encrypt_file initialVaultState (fun _ => []) (fun _ => []) [] 1
          [] [] [] [] = Except.error StorageError.vaultLocked
      ∧ decrypt_file initialVaultState
          { file_manifest := none, encrypted_manifest := none }
          = Except.error StorageError.vaultLocked
      ∧ load_file_registry initialVaultState { stored_files := [] }
          badVerificationBlob [] = Except.error StorageError.vaultLocked :=
  locked_vault_rejected initialVaultState rfl { stored_files := [] } []
    (fun _ _ => none) (fun _ => []) (fun _ => []) [] [] 1 [] [] [] [] []
    (fun _ _ => none) []
    { file_manifest := none, encrypted_manifest := none }
    badVerificationBlob

/-- C9 counterexample: `delete_file` never consults the vault state — with
the vault Locked it still issues backend chunk deletions, removes the
registry entry and reports success, instead of rejecting. -/
theorem delete_file_ignores_lock :
    initialVaultState.is_unlocked = false
      ∧ (delete_file initialVaultState exStorageState (fun _ _ => true)
          [1]).2.1 = true
      ∧ ¬((delete_file initialVaultState exStorageState (fun _ _ => true)
          [1]).2.2 = [])
      ∧ dictGet (delete_file initialVaultState exStorageState
          (fun _ _ => true) [1]).1.stored_files [1] = none := by
  decide

/-- When every chunk download succeeds, the download loop returns all the
downloaded bytes in iteration order together with the full call trace. -/
theorem downloadChunksLoop_success (download : Bytes → Bytes → Option Bytes) :
    ∀ (cs : List ChunkPlacement),
      (∀ c ∈ cs, (download c.drive_account c.drive_file_id).isSome = true) →
      ∀ acc trace, downloadChunksLoop download cs acc trace
        = (true,
           acc ++ cs.map fun c =>
             (download c.drive_account c.drive_file_id).getD [],
           trace ++ cs.map fun c =>
             BackendCall.download c.drive_account c.drive_file_id) := by
  intro cs
  induction cs with
  | nil =>
    intro _ acc trace
    simp [downloadChunksLoop]
  | cons c cs ih =>
    intro h acc trace
    obtain ⟨b, hb⟩ := Option.isSome_iff_exists.mp
      (h c (List.mem_cons_self c cs))
    simp only [downloadChunksLoop, hb]
    rw [ih (fun x hx => h x (List.mem_cons_of_mem c hx))]
    simp [hb, List.append_assoc]

/-- C10: for every stored-file entry that lacks the encrypted manifest
(discovered or manifest-less), with the vault unlocked and every chunk
download succeeding, `retrieve_file` downloads the chunks, concatenates
their still-encrypted bytes in `chunk_index` order, writes that raw
ciphertext concatenation to the output path, and returns `True` — no
decryption and no per-chunk or whole-file hash verification is performed
on this path (the result holds for arbitrary downloaded bytes, unrelated to
any stored hash). -/
theorem retrieve_manifestless_concatenates (vault : VaultState)
    (st : StorageState) (download : Bytes → Bytes → Option Bytes)
    (fid : Bytes) (sf : StoredFile)
    (hunlocked : vault.is_unlocked = true)
    (hmem : dictGet st.stored_files fid = some sf)
    (hnom : sf.metadata.encrypted_manifest = none)
    (hdl : ∀ c ∈ sf.chunks,
      (download c.drive_account c.drive_file_id).isSome = true) :
    retrieve_file vault st download fid = Except.ok
      { ok := true
        output := some ((sf.chunks.mergeSort fun a b =>
            decide (a.chunk_index ≤ b.chunk_index)).map fun c =>
            (download c.drive_account c.drive_file_id).getD []).flatten
        trace := (sf.chunks.mergeSort fun a b =>
            decide (a.chunk_index ≤ b.chunk_index)).map fun c =>
            BackendCall.download c.drive_account c.drive_file_id } := by
  simp only [retrieve_file, hunlocked, hmem, hnom]
  rw [if_neg (by simp)]
  cases hcond : (sf.metadata.imported_from_registry
      || !decide (sf.chunks.length = 0)) with
  | true =>
    rw [if_pos rfl]
    simp only [retrieve_from_chunk_reconstruction]
    rw [downloadChunksLoop_success download
      (sf.chunks.mergeSort fun a b => decide (a.chunk_index ≤ b.chunk_index))
      (fun c hc => hdl c (List.mem_mergeSort.mp hc)) [] []]
    simp
  | false =>
    rw [if_neg (by simp)]
    have hlen : sf.chunks.length = 0 := by
      rcases Bool.or_eq_false_iff.mp hcond with ⟨_, h2⟩
      simpa using h2
    have hchunks : sf.chunks = [] := List.eq_nil_of_length_eq_zero hlen
    simp only [retrieve_discovered_file, hchunks]
    simp [downloadChunksLoop, List.mergeSort_nil]

/-- A discovered-style stored file: two chunks listed out of index order,
no encrypted manifest. -/
def exManifestlessFile : StoredFile :=
  { file_id := [2]
    original_name := [3]
    original_size := 2
    file_hash := []
    chunks :=
      [{ chunk_index := 1, chunk_id := [1], chunk_hash := [], chunk_size := 1,
         drive_file_id := [201], drive_account := [21],
         drive_file_name := [1], uploaded_at := [] },
       { chunk_index := 0, chunk_id := [0], chunk_hash := [], chunk_size := 1,
         drive_file_id := [200], drive_account := [20],
         drive_file_name := [0], uploaded_at := [] }]
    created_at := []
    metadata := emptyMetadata }

/-- The storage state holding just `exManifestlessFile` under key `[2]`. -/
def exStorageState2 : StorageState :=
  { stored_files := [([2], exManifestlessFile)] }

/-- A download oracle that returns the account and object id as bytes. -/
def exDownload : Bytes → Bytes → Option Bytes := fun a f => some (a ++ f)

/-- Witness for C10 at a concrete input: an out-of-order, manifest-less
two-chunk file is returned as the index-ordered raw concatenation. -/
theorem retrieve_manifestless_concatenates_witness :
    retrieve_file exUnlockedVault exStorageState2 exDownload [2] = Except.ok
      { ok := true
        output := some ((exManifestlessFile.chunks.mergeSort fun a b =>
            decide (a.chunk_index ≤ b.chunk_index)).map fun c =>
            (exDownload c.drive_account c.drive_file_id).getD []).flatten
        trace := (exManifestlessFile.chunks.mergeSort fun a b =>
            decide (a.chunk_index ≤ b.chunk_index)).map fun c =>
            BackendCall.download c.drive_account c.drive_file_id } :=
  retrieve_manifestless_concatenates exUnlockedVault exStorageState2
    exDownload [2] exManifestlessFile (by decide) (by decide) (by decide)
    (by decide)
